import Mathlib

set_option maxRecDepth 10000

namespace Raymondo

/-! ## Data model

Shallow embedding of the Raymondo ingestion and routing subsystems.
A `Document` is a langchain document: page content plus the metadata keys the
repository reads (`source`, `author`).  Registry rows model the
`uploaded_documents` table; the vector store (`documents` table) is a list of
stored chunk documents.  Database serial ids are modelled as the row count at
insertion time. -/

structure DocMeta where
  source : String
  author : Option String
deriving DecidableEq

structure Document where
  content : List Char
  meta : DocMeta
deriving DecidableEq

structure RegRow where
  rowId : Nat
  name : String
  author : String
deriving DecidableEq

structure IngestState where
  reg : List RegRow
  store : List Document
deriving DecidableEq

/-- Observable effects issued against the external stores and the UI log, in
program order. -/
inductive Event where
  | warnSkip (name : String)
  | warnNoText (name : String)
  | storeAdd (chunks : List Document)
  | regInsert (name author : String)
  | logSkip (name : String)
  | logBatchFail (idx : Nat)
  | delChunks (name : String)
  | delReg (rowId : Nat) (name : String)
deriving DecidableEq

/-! ## Text splitter

Embedding of langchain's `RecursiveCharacterTextSplitter` as constructed by
`ingest_in_db_excl_dupes.py` and `pages/4_Document_Uploader.py`:
`chunk_size=1000`, `chunk_overlap=100`, default separators
`["\n\n", "\n", " ", ""]`, `keep_separator=True` (separators are literal, not
regexes), `length_function=len`, `strip_whitespace=True`.  Because
`keep_separator=True`, merged chunks are joined with the empty separator. -/

/-- Whether `sep` occurs as a contiguous sublist of the text (what `re.search`
on the escaped literal separator checks). -/
def containsSub (sep : List Char) : List Char → Bool
  | [] => sep.isEmpty
  | t@(_ :: rest) => sep.isPrefixOf t || containsSub sep rest

/-- Split on each leftmost occurrence of the separator, returning the pieces
between occurrences (`re.split` on the escaped literal).  The fuel equals the
text length at the top call; every step consumes at least one character, so
the fuel never runs out on the call pattern used below. -/
def splitOnSepGo (sep : List Char) : Nat → List Char → List Char → List (List Char)
  | 0, text, cur => [cur.reverse ++ text]
  | fuel + 1, text, cur =>
    match text with
    | [] => [cur.reverse]
    | c :: rest =>
      if sep.isPrefixOf (c :: rest) then
        cur.reverse :: splitOnSepGo sep fuel (List.drop (sep.length - 1) rest) []
      else
        splitOnSepGo sep fuel rest (c :: cur)

def splitOnSep (sep text : List Char) : List (List Char) :=
  if sep.isEmpty then [text] else splitOnSepGo sep text.length text []

/-- The `_split_text_with_regex` recombination for `keep_separator=True`: the
separator is attached to the front of the piece that follows it, and empty
pieces are dropped. -/
def splitKeepSep (sep text : List Char) : List (List Char) :=
  match splitOnSep sep text with
  | [] => []
  | p :: ps => (p :: ps.map (fun q => sep ++ q)).filter (fun q => !q.isEmpty)

/-- Characters removed by Python's `str.strip()` (ASCII whitespace). -/
def isPySpace (c : Char) : Bool :=
  c = ' ' || c = '\t' || c = '\n' || c = '\r' || c = '\x0b' || c = '\x0c'

def stripChars (s : List Char) : List Char :=
  ((s.dropWhile isPySpace).reverse.dropWhile isPySpace).reverse

/-- `_join_docs` with the empty separator: concatenate, strip whitespace, and
drop the chunk entirely when nothing remains. -/
def joinDocs (docs : List (List Char)) : Option (List Char) :=
  let t := stripChars docs.flatten
  if t.isEmpty then none else some t

def optToList : Option (List Char) → List (List Char)
  | none => []
  | some d => [d]

/-- The overlap-retention loop of `_merge_splits`: drop leading splits while
the running total exceeds the overlap, or while the next split would not fit
in the chunk size (the separator length is zero here). -/
def popLoop (cs co dLen : Nat) : List (List Char) → Nat → List (List Char) × Nat
  | [], total => ([], total)
  | x :: xs, total =>
    if co < total ∨ (cs < total + dLen ∧ 0 < total) then
      popLoop cs co dLen xs (total - x.length)
    else (x :: xs, total)

/-- The main loop of `_merge_splits`: greedily pack splits into a chunk; when
the next split would overflow, emit the current chunk and retain a suffix of
at most `co` characters as overlap. -/
def mergeLoop (cs co : Nat) : List (List Char) → List (List Char) → Nat → List (List Char)
  | [], cur, _ => optToList (joinDocs cur)
  | d :: ds, cur, total =>
    if cs < total + d.length then
      let flushed := optToList (joinDocs cur)
      let pc := popLoop cs co d.length cur total
      flushed ++ mergeLoop cs co ds (pc.1 ++ [d]) (pc.2 + d.length)
    else
      mergeLoop cs co ds (cur ++ [d]) (total + d.length)

def mergeSplits (cs co : Nat) (splits : List (List Char)) : List (List Char) :=
  mergeLoop cs co splits [] 0

/-- The good-splits loop of `_split_text`: splits shorter than the chunk size
are collected and merged; an oversized split is either recursed into with the
remaining separators (`deeper`) or, when no separators remain, kept whole. -/
def processSplits (cs co : Nat) (deeper : Option (List Char → List (List Char))) :
    List (List Char) → List (List Char) → List (List Char)
  | [], good => mergeSplits cs co good
  | s :: rest, good =>
    if s.length < cs then processSplits cs co deeper rest (good ++ [s])
    else
      mergeSplits cs co good ++
        (match deeper with
          | none => [s]
          | some f => f s) ++
        processSplits cs co deeper rest []

/-- `_split_text`: choose the first separator that is empty or occurs in the
text (defaulting to the last one), split, and process the splits.  An empty
chosen separator splits into single characters and allows no deeper
recursion, exactly as in the Python code. -/
def split_text (cs co : Nat) : List (List Char) → List Char → List (List Char)
  | [], text => [text]
  | s :: rest, text =>
    if s.isEmpty then
      processSplits cs co none (text.map (fun c => [c])) []
    else if containsSub s text then
      processSplits cs co
        (if rest.isEmpty then none else some (fun t => split_text cs co rest t))
        (splitKeepSep s text) []
    else if rest.isEmpty then
      processSplits cs co none (splitKeepSep s text) []
    else
      split_text cs co rest text

/-- The default separator list of `RecursiveCharacterTextSplitter`. -/
def pySeparators : List (List Char) := [['\n', '\n'], ['\n'], [' '], []]

def splitText (cs co : Nat) (text : List Char) : List (List Char) :=
  split_text cs co pySeparators text

/-- `split_documents`: split each document's content and copy its metadata
onto every resulting chunk. -/
def splitDocuments (cs co : Nat) (docs : List Document) : List Document :=
  docs.flatMap (fun d => (splitText cs co d.content).map (fun c => ⟨c, d.meta⟩))

/-! ## Upload pipeline (`pages/4_Document_Uploader.py`)

`process_and_ingest_pdf` for one uploaded file: dedup check against
`uploaded_documents`, rewrite each loaded page's `source` metadata to the
original file name, split, store, then register.  The loaded pages carry
whatever `source` the loader produced (a temporary path); the pipeline
overwrites it.  External-call failures raise out of the function; the success
path models the run in which the external calls succeed. -/

def regHas (reg : List RegRow) (n : String) : Bool :=
  reg.any (fun r => r.name == n)

def countNamed (reg : List RegRow) (n : String) : Nat :=
  (reg.filter (fun r => r.name == n)).length

/-- The metadata rewrite loop: `doc.metadata['source'] = file_name`. -/
def rewriteSource (name : String) (ds : List Document) : List Document :=
  ds.map (fun d => ⟨d.content, ⟨name, d.meta.author⟩⟩)

inductive UploadOutcome where
  | skippedDup
  | noText
  | success
deriving DecidableEq

def process_and_ingest_pdf (fileName : String) (loaded : List Document)
    (st : IngestState) : IngestState × UploadOutcome × List Event :=
  if regHas st.reg fileName then
    (st, .skippedDup, [.warnSkip fileName])
  else
    let docs1 := rewriteSource fileName loaded
    let author :=
      match loaded with
      | [] => "Unknown"
      | d :: _ => d.meta.author.getD "Unknown"
    let chunks := splitDocuments 1000 100 docs1
    if chunks.isEmpty then
      (st, .noText, [.warnNoText fileName])
    else
      (⟨st.reg ++ [⟨st.reg.length, fileName, author⟩], st.store ++ chunks⟩,
        .success, [.storeAdd chunks, .regInsert fileName author])

/-- The upload loop of the page: `for file in uploaded_files:
process_and_ingest_pdf(...)` with no per-file exception handling.  `raises i`
models file `i`'s processing raising an exception (loader or store failure);
the exception propagates to the page-level handler, so the loop stops and the
index of the failing file is reported. -/
def uploadGo (raises : Nat → Bool) (i : Nat) (files : List (String × List Document))
    (st : IngestState) : IngestState × Option Nat :=
  match files with
  | [] => (st, none)
  | (n, ds) :: rest =>
    if raises i then (st, some i)
    else uploadGo raises (i + 1) rest (process_and_ingest_pdf n ds st).1

def uploadRun (raises : Nat → Bool) (files : List (String × List Document))
    (st : IngestState) : IngestState × Option Nat :=
  uploadGo raises 0 files st

/-! ## Directory-scan ingestion script (`ingest_in_db_excl_dupes.py`)

The script loads all page-level documents of the `documents/` directory, runs
the dedup-and-register loop once per page document, then splits the surviving
documents and stores the chunks in batches of 100, skipping batches whose
store call raises. -/

/-- `os.path.basename` on a POSIX path: everything after the last slash. -/
def basename (s : String) : String :=
  String.mk ((splitOnSep ['/'] s.data).getLastD s.data)

/-- The per-document loop: dedup check on the basename of the page's `source`
metadata, registry insert for unseen names, and collection into
`processed_docs`.  The chunk `source` metadata is never rewritten here. -/
def dedupLoop (docs : List Document) (reg : List RegRow) :
    List RegRow × List Document × List Event :=
  match docs with
  | [] => (reg, [], [])
  | d :: rest =>
    let fileName := basename d.meta.source
    let author := d.meta.author.getD "Unknown"
    if regHas reg fileName then
      let r := dedupLoop rest reg
      (r.1, r.2.1, .logSkip fileName :: r.2.2)
    else
      let r := dedupLoop rest (reg ++ [⟨reg.length, fileName, author⟩])
      (r.1, d :: r.2.1, .regInsert fileName author :: r.2.2)

/-- `docs[i:i+100]` slices.  The fuel equals the document count at the top
call; each step consumes at least one document, so it never runs out. -/
def chunkBatchesGo : Nat → List Document → List (List Document)
  | 0, _ => []
  | fuel + 1, docs =>
    match docs with
    | [] => []
    | _ => docs.take 100 :: chunkBatchesGo fuel (docs.drop 100)

def chunkBatches (docs : List Document) : List (List Document) :=
  chunkBatchesGo docs.length docs

/-- The batched storage loop: `add_documents` per batch inside `try/except`;
a failing batch is logged and skipped, the loop continues. -/
def storeLoop (fails : Nat → Bool) (i : Nat) (batches : List (List Document))
    (store : List Document) : List Document × List Event :=
  match batches with
  | [] => (store, [])
  | b :: rest =>
    if fails i then
      let r := storeLoop fails (i + 1) rest store
      (r.1, .logBatchFail i :: r.2)
    else
      let r := storeLoop fails (i + 1) rest (store ++ b)
      (r.1, .storeAdd b :: r.2)

/-- One run of the directory-scan script over the loaded page documents. -/
def batchScriptRun (fails : Nat → Bool) (docs : List Document)
    (reg : List RegRow) (store : List Document) : IngestState × List Event :=
  let r := dedupLoop docs reg
  let chunks := splitDocuments 1000 100 r.2.1
  let s := storeLoop fails 0 (chunkBatches chunks) store
  (⟨r.1, s.1⟩, r.2.2 ++ s.2)

/-! ## Document management page (`pages/2_Documents.py`)

Chunk counts filter the `documents` table on `metadata->>source`; the delete
button removes, per selected row, first the chunks with matching `source` and
then the registry row by id. -/

structure SelRow where
  rowId : Nat
  name : String
deriving DecidableEq

def chunkCount (store : List Document) (name : String) : Nat :=
  (store.filter (fun c => c.meta.source == name)).length

def deleteSelected (rows : List SelRow) (store : List Document)
    (reg : List RegRow) : List Document × List RegRow × List Event :=
  match rows with
  | [] => (store, reg, [])
  | r :: rest =>
    let store1 := store.filter (fun c => c.meta.source != r.name)
    let reg1 := reg.filter (fun x => x.rowId != r.rowId)
    let d := deleteSelected rest store1 reg1
    (d.1, d.2.1, .delChunks r.name :: .delReg r.rowId r.name :: d.2.2)

/-! ## Router (`1_Raymondo.py`)

`initialize_system` builds the document agent unconditionally and the SQL
agent only when all four database secrets are present and engine/agent
construction succeeds; the SQL database is built with
`include_tables=['completions']`.  The radio options and the chat dispatch
follow the page's control flow. -/

structure SQLDatabaseCfg where
  allTables : List String
  includeTables : List String
deriving DecidableEq

/-- langchain `SQLDatabase`: when `include_tables` is given, the usable table
names are exactly that allow-list. -/
def usableTableNames (db : SQLDatabaseCfg) : List String :=
  if db.includeTables.isEmpty then db.allTables else db.includeTables

def mkRaymondoDb (tables : List String) : SQLDatabaseCfg :=
  ⟨tables, ["completions"]⟩

def requiredDbKeys : List String := ["DB_USER", "DB_PASSWORD", "DB_HOST", "DB_NAME"]

def sqlSecretsConfigured (keys : List String) : Bool :=
  requiredDbKeys.all (fun k => keys.contains k)

/-- The SQL half of `initialize_system`: `sql_executor` stays `None` unless
all secrets are present and the `try` block succeeds (`engineOk`). -/
def initialize_system (keys : List String) (dbTables : List String)
    (engineOk : Bool) : Option SQLDatabaseCfg :=
  if sqlSecretsConfigured keys then
    (if engineOk then some (mkRaymondoDb dbTables) else none)
  else none

def docsLabel : String := "Internal Documents (PDFs)"

def caseLabel : String := "Case Data (Completions)"

def radio_options (sqlAvailable : Bool) : List String :=
  if sqlAvailable then [docsLabel, caseLabel] else [docsLabel]

inductive ChatAction where
  | invokeDocAgent (input : String)
  | invokeSqlAgent (input : String)
  | showError
  | noAction
deriving DecidableEq

/-- The prompt prefix naming the single allowed table. -/
def promptedInput (q : String) : String :=
  "Based on the \x27completions\x27 table, answer the user\x27s question: " ++ q

def dispatch (dataSource : String) (docAvail : Bool)
    (sqlAgent : Option SQLDatabaseCfg) (q : String) : ChatAction :=
  if dataSource == docsLabel then
    (if docAvail then .invokeDocAgent q else .showError)
  else if dataSource == caseLabel then
    (match sqlAgent with
      | none => .showError
      | some _ => .invokeSqlAgent (promptedInput q))
  else .noAction

/-! ## Specification predicates -/

/-- Within one trace, every registry insert is preceded by a nonempty chunk
store. -/
def registerAfterStore (t : List Event) : Prop :=
  ∀ i n a, t.get? i = some (.regInsert n a) →
    ∃ j, j < i ∧ ∃ chs, t.get? j = some (.storeAdd chs) ∧ chs ≠ []

/-- Within one trace, every registry-row delete is preceded by a chunk delete
for the same document name. -/
def chunksBeforeReg (t : List Event) : Prop :=
  ∀ i rid n, t.get? i = some (.delReg rid n) →
    ∃ j, j < i ∧ t.get? j = some (.delChunks n)

/-- Consecutive chunks overlap by exactly `co` characters: the first `co`
characters of each chunk equal the last `co` characters of its predecessor. -/
def consecOverlap (co : Nat) : List (List Char) → Prop :=
  List.Chain' (fun a b => b.take co = a.drop (a.length - co))

def sumLen (xs : List (List Char)) : Nat :=
  (xs.map List.length).sum

/-! ## Helper lemmas -/

theorem regHas_of_countNamed_pos (reg : List RegRow) (n : String)
    (h : 0 < countNamed reg n) : regHas reg n = true := by
  unfold countNamed at h
  obtain ⟨r, hr⟩ := List.exists_mem_of_length_pos h
  unfold regHas
  rw [List.any_eq_true]
  have hpr := List.of_mem_filter hr
  exact ⟨r, List.mem_of_mem_filter hr, hpr⟩

theorem dedupLoop_all_dup (docs : List Document) :
    ∀ reg, (∀ d ∈ docs, regHas reg (basename d.meta.source) = true) →
      dedupLoop docs reg =
        (reg, [], docs.map (fun d => .logSkip (basename d.meta.source))) := by
  induction docs with
  | nil => intro reg _; rfl
  | cons d rest ih =>
    intro reg h
    have hd := h d (by simp)
    simp only [dedupLoop, hd, if_true, List.map_cons]
    rw [ih reg (fun x hx => h x (by simp [hx]))]

theorem deleteSelected_store_mem (rows : List SelRow) :
    ∀ store reg c, c ∈ (deleteSelected rows store reg).1 → c ∈ store := by
  induction rows with
  | nil => intro store reg c hc; simpa [deleteSelected] using hc
  | cons r rest ih =>
    intro store reg c hc
    simp only [deleteSelected] at hc
    exact List.mem_of_mem_filter (ih _ _ _ hc)

theorem deleteSelected_count_zero (rows : List SelRow) :
    ∀ store reg r, r ∈ rows → chunkCount (deleteSelected rows store reg).1 r.name = 0 := by
  induction rows with
  | nil => intro store reg r hr; simp at hr
  | cons hd rest ih =>
    intro store reg r hr
    rcases List.mem_cons.mp hr with h | h
    · subst h
      simp only [deleteSelected, chunkCount]
      rw [List.length_eq_zero, List.filter_eq_nil_iff]
      intro c hc
      have hc1 := deleteSelected_store_mem rest _ _ c hc
      have := List.of_mem_filter hc1
      simp only [bne_iff_ne, ne_eq, decide_eq_true_eq] at this
      simpa [beq_iff_eq] using this
    · simp only [deleteSelected]
      exact ih _ _ r h

theorem deleteSelected_trace_order (rows : List SelRow) :
    ∀ store reg, chunksBeforeReg (deleteSelected rows store reg).2.2 := by
  induction rows with
  | nil => intro store reg i rid n h; simp [deleteSelected] at h
  | cons hd rest ih =>
    intro store reg i rid n h
    simp only [deleteSelected] at h
    match i with
    | 0 => simp at h
    | 1 =>
      refine ⟨0, by omega, ?_⟩
      simp only [List.get?] at h ⊢
      injection h with h
      cases h
      rfl
    | (k + 2) =>
      obtain ⟨j, hj, hget⟩ := ih _ _ k rid n h
      exact ⟨j + 2, by omega, hget⟩

theorem storeLoop_mono (fails : Nat → Bool) :
    ∀ batches i store c, c ∈ store → c ∈ (storeLoop fails i batches store).1 := by
  intro batches
  induction batches with
  | nil => intro i store c hc; simpa [storeLoop] using hc
  | cons b rest ih =>
    intro i store c hc
    simp only [storeLoop]
    split
    · exact ih _ _ _ hc
    · exact ih _ _ _ (List.mem_append_left _ hc)

theorem splitDocuments_meta (cs co : Nat) (docs : List Document) :
    ∀ c ∈ splitDocuments cs co docs, ∃ d ∈ docs, c.meta = d.meta := by
  intro c hc
  simp only [splitDocuments, List.mem_flatMap, List.mem_map] at hc
  obtain ⟨d, hd, t, _, rfl⟩ := hc
  exact ⟨d, hd, rfl⟩

/-! ## Claim theorems -/

/-- C6: when the database secrets are not fully configured the SQL agent is
absent entirely, the structured-data option is not among the selectable radio
options, and no dispatch of any question ever invokes the SQL agent. -/
theorem C6_router_gating (keys dbTables : List String) (engineOk : Bool)
    (h : sqlSecretsConfigured keys = false) :
    initialize_system keys dbTables engineOk = none ∧
    caseLabel ∉ radio_options (initialize_system keys dbTables engineOk).isSome ∧
    (∀ ds q input,
      dispatch ds true (initialize_system keys dbTables engineOk) q ≠ .invokeSqlAgent input) := by
  have hnone : initialize_system keys dbTables engineOk = none := by
    simp [initialize_system, h]
  refine ⟨hnone, ?_, ?_⟩
  · rw [hnone]
    simp [radio_options, caseLabel, docsLabel]
  · intro ds q input
    rw [hnone]
    unfold dispatch
    split
    · split <;> simp
    · split <;> simp

theorem C6_router_gating_witness :
    sqlSecretsConfigured ["SUPABASE_URL", "SUPABASE_SERVICE_KEY", "OPENAI_API_KEY"] = false ∧
    dispatch caseLabel true
      (initialize_system ["SUPABASE_URL", "SUPABASE_SERVICE_KEY", "OPENAI_API_KEY"]
        ["completions"] true) "How many completions?" ≠ ChatAction.invokeSqlAgent "x" :=
  ⟨by decide,
    (C6_router_gating ["SUPABASE_URL", "SUPABASE_SERVICE_KEY", "OPENAI_API_KEY"]
      ["completions"] true (by decide)).2.2 caseLabel "How many completions?" "x"⟩

/-- C8: the SQL database is constructed with the allow-list
`include_tables=['completions']`, so its usable tables are exactly
`completions` and nothing else, and the structured dispatch prefixes the
user's question with the instruction naming that single table. -/
theorem C8_table_allowlist (tables : List String) (q : String) :
    usableTableNames (mkRaymondoDb tables) = ["completions"] ∧
    (∀ t ∈ usableTableNames (mkRaymondoDb tables), t = "completions") ∧
    dispatch caseLabel true (some (mkRaymondoDb tables)) q = .invokeSqlAgent (promptedInput q) := by
  refine ⟨rfl, ?_, ?_⟩
  · intro t ht
    simpa [usableTableNames, mkRaymondoDb] using ht
  · simp [dispatch, caseLabel, docsLabel]

theorem C8_table_allowlist_witness :
    usableTableNames (mkRaymondoDb ["completions", "uploaded_documents", "documents"])
      = ["completions"] ∧
    dispatch caseLabel true (some (mkRaymondoDb ["completions", "uploaded_documents", "documents"]))
        "What is the total release?"
      = ChatAction.invokeSqlAgent (promptedInput "What is the total release?") :=
  ⟨(C8_table_allowlist ["completions", "uploaded_documents", "documents"]
      "What is the total release?").1,
    (C8_table_allowlist ["completions", "uploaded_documents", "documents"]
      "What is the total release?").2.2⟩

/-- C5: deleting selected documents removes each document's chunks (filtered
by `metadata->>source` equal to its name) before removing its registry row,
and afterwards the chunk count for every deleted name is zero. -/
theorem C5_cascading_delete (rows : List SelRow) (store : List Document) (reg : List RegRow) :
    (∀ r ∈ rows, chunkCount (deleteSelected rows store reg).1 r.name = 0) ∧
    chunksBeforeReg (deleteSelected rows store reg).2.2 :=
  ⟨fun r hr => deleteSelected_count_zero rows store reg r hr,
    deleteSelected_trace_order rows store reg⟩

theorem C5_cascading_delete_witness :
    chunkCount
      (deleteSelected [⟨1, "guide.pdf"⟩]
        [⟨"hello world".data, ⟨"guide.pdf", none⟩⟩, ⟨"other".data, ⟨"other.pdf", none⟩⟩]
        [⟨1, "guide.pdf", "Alice"⟩]).1 "guide.pdf" = 0 :=
  (C5_cascading_delete [⟨1, "guide.pdf"⟩]
    [⟨"hello world".data, ⟨"guide.pdf", none⟩⟩, ⟨"other".data, ⟨"other.pdf", none⟩⟩]
    [⟨1, "guide.pdf", "Alice"⟩]).1 ⟨1, "guide.pdf"⟩ (by simp)

/-- C1: ingesting a file whose name is already registered a second time
leaves exactly one registry row for that name and stores no new chunks: the
upload pipeline checks the registry, emits the skip warning and stops, and a
second run of the directory-scan script over already-registered files leaves
both stores unchanged. -/
theorem C1_idempotent_ingestion (name : String) (loaded : List Document)
    (st : IngestState) (docs : List Document) (reg2 : List RegRow)
    (store0 : List Document) (fails : Nat → Bool)
    (h1 : countNamed st.reg name = 1)
    (h2 : ∀ d ∈ docs, regHas reg2 (basename d.meta.source) = true) :
    countNamed (process_and_ingest_pdf name loaded st).1.reg name = 1 ∧
    (process_and_ingest_pdf name loaded st).1.store = st.store ∧
    (process_and_ingest_pdf name loaded st).2.1 = .skippedDup ∧
    (process_and_ingest_pdf name loaded st).2.2 = [.warnSkip name] ∧
    (batchScriptRun fails docs reg2 store0).1.reg = reg2 ∧
    (batchScriptRun fails docs reg2 store0).1.store = store0 := by
  have hr : regHas st.reg name = true := regHas_of_countNamed_pos _ _ (by omega)
  have hded := dedupLoop_all_dup docs reg2 h2
  refine ⟨?_, ?_, ?_, ?_, ?_, ?_⟩ <;>
    simp [process_and_ingest_pdf, hr, h1, batchScriptRun, hded, splitDocuments,
      chunkBatches, chunkBatchesGo, storeLoop]

theorem C1_idempotent_ingestion_witness :
    countNamed [⟨0, "guide.pdf", "Alice"⟩] "guide.pdf" = 1 ∧
    countNamed
      (process_and_ingest_pdf "guide.pdf" [⟨"new text".data, ⟨"/tmp/t.pdf", none⟩⟩]
        ⟨[⟨0, "guide.pdf", "Alice"⟩], [⟨"hello world".data, ⟨"guide.pdf", none⟩⟩]⟩).1.reg
      "guide.pdf" = 1 ∧
    (process_and_ingest_pdf "guide.pdf" [⟨"new text".data, ⟨"/tmp/t.pdf", none⟩⟩]
        ⟨[⟨0, "guide.pdf", "Alice"⟩], [⟨"hello world".data, ⟨"guide.pdf", none⟩⟩]⟩).1.store
      = [⟨"hello world".data, ⟨"guide.pdf", none⟩⟩] :=
  ⟨by decide,
    (C1_idempotent_ingestion "guide.pdf" [⟨"new text".data, ⟨"/tmp/t.pdf", none⟩⟩]
      ⟨[⟨0, "guide.pdf", "Alice"⟩], [⟨"hello world".data, ⟨"guide.pdf", none⟩⟩]⟩
      [] [] [] (fun _ => false) (by decide) (by simp)).1,
    (C1_idempotent_ingestion "guide.pdf" [⟨"new text".data, ⟨"/tmp/t.pdf", none⟩⟩]
      ⟨[⟨0, "guide.pdf", "Alice"⟩], [⟨"hello world".data, ⟨"guide.pdf", none⟩⟩]⟩
      [] [] [] (fun _ => false) (by decide) (by simp)).2.1⟩

/-- C2 counterexample: the directory-scan script stores chunks whose `source`
metadata is the loader's directory-relative path, while the registry dedup
key is the basename; the two differ, so not every stored chunk's `source`
equals the registry dedup key. -/
theorem C2_source_counterexample :
    ((batchScriptRun (fun _ => false)
        [⟨"hello world".data, ⟨"documents/guide.pdf", some "Alice"⟩⟩] [] []).1.store.map
      (fun c => c.meta.source)) = ["documents/guide.pdf"] ∧
    ((batchScriptRun (fun _ => false)
        [⟨"hello world".data, ⟨"documents/guide.pdf", some "Alice"⟩⟩] [] []).1.reg.map
      (fun r => r.name)) = ["guide.pdf"] ∧
    "documents/guide.pdf" ≠ "guide.pdf" := by
  refine ⟨by decide, by decide, by decide⟩

/-- C2 amended: every chunk stored by the upload pipeline carries the
canonical file name in its `source` metadata; the directory-scan script does
not rewrite `source`, so its chunks keep the loader path (see the
counterexample). -/
theorem C2_source_amended (name : String) (loaded : List Document)
    (st : IngestState) (c : Document)
    (hc : c ∈ (process_and_ingest_pdf name loaded st).1.store) :
    c ∈ st.store ∨ c.meta.source = name := by
  revert hc
  simp only [process_and_ingest_pdf]
  split
  · intro hc
    exact .inl hc
  · split
    · intro hc
      exact .inl hc
    · intro hc
      rcases List.mem_append.mp hc with h | h
      · exact .inl h
      · right
        obtain ⟨d, hd, hmeta⟩ := splitDocuments_meta _ _ _ c h
        simp only [rewriteSource, List.mem_map] at hd
        obtain ⟨d0, _, rfl⟩ := hd
        rw [hmeta]

theorem C2_source_amended_witness :
    ⟨"hello world".data, ⟨"guide.pdf", (none : Option String)⟩⟩
        ∈ (⟨[], []⟩ : IngestState).store ∨
      (⟨"hello world".data, ⟨"guide.pdf", (none : Option String)⟩⟩ : Document).meta.source
        = "guide.pdf" :=
  C2_source_amended "guide.pdf" [⟨"hello world".data, ⟨"/tmp/t.pdf", none⟩⟩]
    ⟨[], []⟩ ⟨"hello world".data, ⟨"guide.pdf", none⟩⟩ (by decide)

/-- C3 counterexample: the directory-scan script issues the registry insert
for a file before any chunk of it is stored (the insert is the first event of
the run's trace), refuting the store-before-register ordering for the
pipeline at large. -/
theorem C3_order_counterexample :
    ¬ registerAfterStore
        (batchScriptRun (fun _ => false)
          [⟨"hello world".data, ⟨"documents/guide.pdf", some "Alice"⟩⟩] [] []).2 := by
  intro h
  have htr : (batchScriptRun (fun _ => false)
      [⟨"hello world".data, ⟨"documents/guide.pdf", some "Alice"⟩⟩] [] []).2
      = [Event.regInsert "guide.pdf" "Alice",
         Event.storeAdd [⟨"hello world".data, ⟨"documents/guide.pdf", some "Alice"⟩⟩]] := by
    decide
  obtain ⟨j, hj, -⟩ := h 0 "guide.pdf" "Alice" (by rw [htr]; rfl)
  omega

/-- C3 amended: within the upload pipeline the registry insert is issued only
after a nonempty chunk batch has been stored; the directory-scan script
instead registers before storing (see the counterexample). -/
theorem C3_order_amended (name : String) (loaded : List Document) (st : IngestState) :
    registerAfterStore (process_and_ingest_pdf name loaded st).2.2 := by
  intro i n a h
  revert h
  simp only [process_and_ingest_pdf]
  split
  · intro h
    match i with
    | 0 => simp at h
    | k + 1 => simp at h
  · split
    · intro h
      match i with
      | 0 => simp at h
      | k + 1 => simp at h
    · rename_i hne
      intro h
      match i with
      | 0 => simp at h
      | 1 =>
        refine ⟨0, by omega, splitDocuments 1000 100 (rewriteSource name loaded), rfl, ?_⟩
        intro hnil
        rw [hnil] at hne
        simp at hne
      | k + 2 => simp at h

theorem C3_order_amended_witness :
    registerAfterStore
      (process_and_ingest_pdf "guide.pdf" [⟨"hello world".data, ⟨"/tmp/t.pdf", none⟩⟩]
        ⟨[], []⟩).2.2 :=
  C3_order_amended "guide.pdf" [⟨"hello world".data, ⟨"/tmp/t.pdf", none⟩⟩] ⟨[], []⟩

/-- C4 counterexample: in the directory-scan script the registry insert
happens before chunking, so a document whose text yields no chunks still gets
a registry row, refuting "the registry is not updated" for the pipeline at
large. -/
theorem C4_empty_counterexample :
    splitDocuments 1000 100 [⟨[], ⟨"documents/empty.pdf", none⟩⟩] = [] ∧
    (batchScriptRun (fun _ => false) [⟨[], ⟨"documents/empty.pdf", none⟩⟩] [] []).1.reg
      = [⟨0, "empty.pdf", "Unknown"⟩] ∧
    (batchScriptRun (fun _ => false) [⟨[], ⟨"documents/empty.pdf", none⟩⟩] [] []).1.store
      = [] := by
  refine ⟨by decide, by decide, by decide⟩

/-- C4 amended: in the upload pipeline, a file whose rewritten pages chunk to
the empty sequence is skipped with a warning and neither store is touched; in
the directory-scan script the registry row is inserted before chunking (see
the counterexample). -/
theorem C4_empty_amended (name : String) (loaded : List Document) (st : IngestState)
    (hdup : regHas st.reg name = false)
    (hempty : splitDocuments 1000 100 (rewriteSource name loaded) = []) :
    process_and_ingest_pdf name loaded st = (st, .noText, [.warnNoText name]) := by
  simp [process_and_ingest_pdf, hdup, hempty]

theorem C4_empty_amended_witness :
    regHas ([] : List RegRow) "empty.pdf" = false ∧
    splitDocuments 1000 100 (rewriteSource "empty.pdf" [⟨[], ⟨"/tmp/t.pdf", none⟩⟩]) = [] ∧
    process_and_ingest_pdf "empty.pdf" [⟨[], ⟨"/tmp/t.pdf", none⟩⟩] ⟨[], []⟩
      = (⟨[], []⟩, .noText, [.warnNoText "empty.pdf"]) :=
  ⟨by decide, by decide,
    C4_empty_amended "empty.pdf" [⟨[], ⟨"/tmp/t.pdf", none⟩⟩] ⟨[], []⟩ (by decide) (by decide)⟩

/-- C7 counterexample: the upload loop has no per-file exception handling, so
a file whose processing raises aborts the run — the error propagates (the run
ends with a failure index) and a perfectly ingestible later file is never
registered, even though processing it alone would succeed. -/
theorem C7_abort_counterexample :
    (uploadRun (fun i => i == 0)
        [("bad.pdf", [⟨"oops".data, ⟨"/tmp/a.pdf", none⟩⟩]),
         ("good.pdf", [⟨"hello world".data, ⟨"/tmp/b.pdf", none⟩⟩])]
        ⟨[], []⟩).2 = some 0 ∧
    regHas (uploadRun (fun i => i == 0)
        [("bad.pdf", [⟨"oops".data, ⟨"/tmp/a.pdf", none⟩⟩]),
         ("good.pdf", [⟨"hello world".data, ⟨"/tmp/b.pdf", none⟩⟩])]
        ⟨[], []⟩).1.reg "good.pdf" = false ∧
    regHas (uploadRun (fun _ => false)
        [("good.pdf", [⟨"hello world".data, ⟨"/tmp/b.pdf", none⟩⟩])]
        ⟨[], []⟩).1.reg "good.pdf" = true := by
  refine ⟨by decide, by decide, by decide⟩

/-- C7 amended: in the directory-scan script's batched storage loop a failing
batch is logged and skipped while the loop continues — every batch is
processed (one log event per batch) and every chunk of every non-failing
batch is stored; the upload loop, in contrast, aborts on a per-file error
(see the counterexample). -/
theorem C7_batch_containment (fails : Nat → Bool) (batches : List (List Document)) :
    ∀ i store, (storeLoop fails i batches store).2.length = batches.length ∧
      (∀ j b, batches.get? j = some b → fails (i + j) = false →
        ∀ c ∈ b, c ∈ (storeLoop fails i batches store).1) := by
  induction batches with
  | nil =>
    intro i store
    refine ⟨rfl, ?_⟩
    intro j b hj
    simp at hj
  | cons hd rest ih =>
    intro i store
    constructor
    · simp only [storeLoop]
      split <;> simp [(ih (i + 1) store).1, (ih (i + 1) (store ++ hd)).1]
    · intro j b hj hf c hc
      match j with
      | 0 =>
        injection hj with hb
        subst hb
        have hfi : fails i = false := by simpa using hf
        simp only [storeLoop, hfi, Bool.false_eq_true, if_false]
        exact storeLoop_mono fails rest (i + 1) (store ++ hd) c (List.mem_append_right _ hc)
      | k + 1 =>
        have hj' : rest.get? k = some b := hj
        have hf' : fails ((i + 1) + k) = false := by
          rw [show (i + 1) + k = i + (k + 1) by omega]
          exact hf
        simp only [storeLoop]
        split
        · exact (ih (i + 1) store).2 k b hj' hf' c hc
        · exact (ih (i + 1) (store ++ hd)).2 k b hj' hf' c hc

theorem C7_batch_containment_witness :
    (([[⟨"aaa".data, ⟨"a.pdf", none⟩⟩], [⟨"bbb".data, ⟨"b.pdf", none⟩⟩]] :
          List (List Document)).get? 1
        = some [⟨"bbb".data, ⟨"b.pdf", none⟩⟩]) ∧
    ((fun i => i == 0) (0 + 1) = false) ∧
    (⟨"bbb".data, ⟨"b.pdf", none⟩⟩ : Document)
      ∈ (storeLoop (fun i => i == 0) 0
          [[⟨"aaa".data, ⟨"a.pdf", none⟩⟩], [⟨"bbb".data, ⟨"b.pdf", none⟩⟩]] []).1 :=
  ⟨rfl, rfl,
    ((C7_batch_containment (fun i => i == 0)
        [[⟨"aaa".data, ⟨"a.pdf", none⟩⟩], [⟨"bbb".data, ⟨"b.pdf", none⟩⟩]]) 0 []).2
      1 [⟨"bbb".data, ⟨"b.pdf", none⟩⟩] rfl rfl
      ⟨"bbb".data, ⟨"b.pdf", none⟩⟩ (by simp)⟩

/-- C10: in the directory-scan script the dedup check and registry insert run
once per loaded page document, so for a multi-page file the first page
inserts the registry row, every later page of the same file is skipped as a
duplicate, and only chunks derived from the first page reach the store. -/
theorem C10_per_page_dedup (src : String) (p : Document) (rest : List Document)
    (reg : List RegRow) (store : List Document) (fails : Nat → Bool)
    (h1 : p.meta.source = src) (h2 : ∀ d ∈ rest, d.meta.source = src)
    (h3 : regHas reg (basename src) = false) :
    (dedupLoop (p :: rest) reg).2.1 = [p] ∧
    (dedupLoop (p :: rest) reg).1
      = reg ++ [⟨reg.length, basename src, p.meta.author.getD "Unknown"⟩] ∧
    (dedupLoop (p :: rest) reg).2.2
      = .regInsert (basename src) (p.meta.author.getD "Unknown")
          :: rest.map (fun _ => .logSkip (basename src)) ∧
    (batchScriptRun fails (p :: rest) reg store).1.store
      = (storeLoop fails 0 (chunkBatches (splitDocuments 1000 100 [p])) store).1 := by
  have hreg1 : ∀ d ∈ rest,
      regHas (reg ++ [⟨reg.length, basename src, p.meta.author.getD "Unknown"⟩])
        (basename d.meta.source) = true := by
    intro d hd
    rw [h2 d hd]
    simp [regHas, List.any_append]
  have hded := dedupLoop_all_dup rest _ hreg1
  have hstep : dedupLoop (p :: rest) reg
      = (reg ++ [⟨reg.length, basename src, p.meta.author.getD "Unknown"⟩], [p],
          .regInsert (basename src) (p.meta.author.getD "Unknown")
            :: rest.map (fun d => .logSkip (basename d.meta.source))) := by
    simp only [dedupLoop, h1, h3, Bool.false_eq_true, if_false]
    rw [hded]
  have hmap : rest.map (fun d => Event.logSkip (basename d.meta.source))
      = rest.map (fun _ => Event.logSkip (basename src)) := by
    apply List.map_congr_left
    intro d hd
    rw [h2 d hd]
  refine ⟨?_, ?_, ?_, ?_⟩
  · rw [hstep]
  · rw [hstep]
  · rw [hstep, hmap]
  · simp only [batchScriptRun, hstep]

theorem C10_per_page_dedup_witness :
    (dedupLoop
        [⟨"page one text".data, ⟨"documents/guide.pdf", some "Alice"⟩⟩,
         ⟨"page two text".data, ⟨"documents/guide.pdf", some "Alice"⟩⟩] []).2.1
      = [⟨"page one text".data, ⟨"documents/guide.pdf", some "Alice"⟩⟩] ∧
    (dedupLoop
        [⟨"page one text".data, ⟨"documents/guide.pdf", some "Alice"⟩⟩,
         ⟨"page two text".data, ⟨"documents/guide.pdf", some "Alice"⟩⟩] []).1
      = [⟨0, "guide.pdf", "Alice"⟩] :=
  ⟨(C10_per_page_dedup "documents/guide.pdf"
      ⟨"page one text".data, ⟨"documents/guide.pdf", some "Alice"⟩⟩
      [⟨"page two text".data, ⟨"documents/guide.pdf", some "Alice"⟩⟩]
      [] [] (fun _ => false) rfl (by simp) (by decide)).1,
    by
      have h := (C10_per_page_dedup "documents/guide.pdf"
        ⟨"page one text".data, ⟨"documents/guide.pdf", some "Alice"⟩⟩
        [⟨"page two text".data, ⟨"documents/guide.pdf", some "Alice"⟩⟩]
        [] [] (fun _ => false) rfl (by simp) (by decide)).2.1
      simpa using h⟩

/-! ## Chunk-size bound for the splitter -/

theorem stripChars_length_le (s : List Char) : (stripChars s).length ≤ s.length := by
  have h1 : (s.dropWhile isPySpace).length ≤ s.length :=
    List.Sublist.length_le (List.dropWhile_sublist _)
  have h2 : ((s.dropWhile isPySpace).reverse.dropWhile isPySpace).length
      ≤ (s.dropWhile isPySpace).reverse.length :=
    List.Sublist.length_le (List.dropWhile_sublist _)
  rw [List.length_reverse] at h2
  unfold stripChars
  rw [List.length_reverse]
  exact le_trans h2 h1

theorem joinDocs_length_le (docs : List (List Char)) (d : List Char)
    (h : joinDocs docs = some d) : d.length ≤ sumLen docs := by
  simp only [joinDocs] at h
  split at h
  · exact absurd h (by simp)
  · injection h with h
    subst h
    calc (stripChars docs.flatten).length ≤ docs.flatten.length := stripChars_length_le _
      _ = sumLen docs := by simp [sumLen]

theorem popLoop_spec (cs co dLen : Nat) :
    ∀ cur total, total = sumLen cur →
      (popLoop cs co dLen cur total).2 = sumLen (popLoop cs co dLen cur total).1 ∧
      (popLoop cs co dLen cur total).2 ≤ co ∧
      ((popLoop cs co dLen cur total).2 + dLen ≤ cs ∨ (popLoop cs co dLen cur total).2 = 0) := by
  intro cur
  induction cur with
  | nil =>
    intro total h
    have h0 : total = 0 := by simpa [sumLen] using h
    subst h0
    simp [popLoop, sumLen]
  | cons x xs ih =>
    intro total h
    simp only [popLoop]
    split
    · apply ih
      rw [h]
      simp only [sumLen, List.map_cons, List.sum_cons]
      omega
    · rename_i hcond
      push_neg at hcond
      exact ⟨h, by omega, by omega⟩

theorem mergeLoop_bound (cs co : Nat) :
    ∀ splits cur total, (∀ s ∈ splits, s.length < cs) → total = sumLen cur → total ≤ cs →
      ∀ d ∈ mergeLoop cs co splits cur total, d.length ≤ cs := by
  intro splits
  induction splits with
  | nil =>
    intro cur total _ ht hle d hd
    simp only [mergeLoop] at hd
    cases hj : joinDocs cur with
    | none => simp [hj, optToList] at hd
    | some d0 =>
      rw [hj] at hd
      simp only [optToList, List.mem_singleton] at hd
      subst hd
      exact le_trans (joinDocs_length_le _ _ hj) (by rw [← ht]; exact hle)
  | cons s ss ih =>
    intro cur total hs ht hle d hd
    simp only [mergeLoop] at hd
    split at hd
    · rename_i hover
      rcases List.mem_append.mp hd with h | h
      · cases hj : joinDocs cur with
        | none => simp [hj, optToList] at h
        | some d0 =>
          rw [hj] at h
          simp only [optToList, List.mem_singleton] at h
          subst h
          exact le_trans (joinDocs_length_le _ _ hj) (by rw [← ht]; exact hle)
      · have hpop := popLoop_spec cs co s.length cur total ht
        refine ih ((popLoop cs co s.length cur total).1 ++ [s])
          ((popLoop cs co s.length cur total).2 + s.length) ?_ ?_ ?_ d h
        · intro t htm
          exact hs t (by simp [htm])
        · rw [hpop.1]
          simp [sumLen]
        · rcases hpop.2.2 with h2 | h2
          · omega
          · rw [h2]
            have := hs s (by simp)
            omega
    · rename_i hfit
      refine ih (cur ++ [s]) (total + s.length) ?_ ?_ ?_ d hd
      · intro t htm
        exact hs t (by simp [htm])
      · rw [ht]
        simp [sumLen]
      · omega

theorem mergeSplits_bound (cs co : Nat) (splits : List (List Char))
    (hs : ∀ s ∈ splits, s.length < cs) : ∀ d ∈ mergeSplits cs co splits, d.length ≤ cs :=
  mergeLoop_bound cs co splits [] 0 hs (by simp [sumLen]) (Nat.zero_le cs)

theorem processSplits_bound (cs co : Nat) (deeper : Option (List Char → List (List Char)))
    (hdeep : ∀ f, deeper = some f → ∀ t c, c ∈ f t → c.length ≤ cs) :
    ∀ splits good, (∀ s ∈ good, s.length < cs) →
      (deeper = none → ∀ s ∈ splits, s.length < cs) →
      ∀ c ∈ processSplits cs co deeper splits good, c.length ≤ cs := by
  intro splits
  induction splits with
  | nil =>
    intro good hg _ c hc
    exact mergeSplits_bound cs co good hg c hc
  | cons s ss ih =>
    intro good hg hnone c hc
    simp only [processSplits] at hc
    split at hc
    · rename_i hlt
      refine ih (good ++ [s]) ?_ (fun hn t ht => hnone hn t (by simp [ht])) c hc
      intro t ht
      rcases List.mem_append.mp ht with h | h
      · exact hg t h
      · simp only [List.mem_singleton] at h
        subst h
        exact hlt
    · rcases List.mem_append.mp hc with h | h
      · rcases List.mem_append.mp h with h1 | h1
        · exact mergeSplits_bound cs co good hg c h1
        · cases hde : deeper with
          | none =>
            rw [hde] at h1
            simp only [List.mem_singleton] at h1
            subst h1
            exact le_of_lt (hnone hde c (by simp))
          | some f =>
            rw [hde] at h1
            exact hdeep f hde s c h1
      · exact ih [] (by simp) (fun hn t ht => hnone hn t (by simp [ht])) c h

theorem split_text_bound (cs co : Nat) (h1 : 1 < cs) :
    ∀ seps, [] ∈ seps → ∀ text c, c ∈ split_text cs co seps text → c.length ≤ cs := by
  intro seps
  induction seps with
  | nil =>
    intro h
    simp at h
  | cons s rest ih =>
    intro hmem text c hc
    simp only [split_text] at hc
    split at hc
    · refine processSplits_bound cs co none (by intro f hf; cases hf) _ [] (by simp) ?_ c hc
      intro _ t ht
      simp only [List.mem_map] at ht
      obtain ⟨a, _, rfl⟩ := ht
      simpa using h1
    · rename_i hsne
      have hrest : [] ∈ rest := by
        rcases List.mem_cons.mp hmem with h | h
        · exfalso
          apply hsne
          rw [← h]
          rfl
        · exact h
      have hrne : rest.isEmpty = false := by
        cases rest with
        | nil => simp at hrest
        | cons a b => rfl
      split at hc
      · rw [hrne] at hc
        simp only [Bool.false_eq_true, if_false] at hc
        refine processSplits_bound cs co (some (fun t => split_text cs co rest t)) ?_
          _ [] (by simp) (by intro hn; cases hn) c hc
        intro f hf t cc hcc
        injection hf with hf
        subst hf
        exact ih hrest t cc hcc
      · split at hc
        · rename_i hre
          rw [hrne] at hre
          cases hre
        · exact ih hrest text c hc

/-- C9 counterexample: with `chunk_size=1000`, `chunk_overlap=100`, the text
of 600 letters `a`, a space, and 600 letters `b` splits into two chunks that
share no characters at all, so consecutive chunks do not overlap by exactly
`chunk_overlap` characters. -/
theorem C9_overlap_counterexample :
    ¬ ∀ text : List Char, consecOverlap 100 (splitText 1000 100 text) := by
  intro h
  have hx := h (List.replicate 600 'a' ++ ' ' :: List.replicate 600 'b')
  have hsp : splitText 1000 100 (List.replicate 600 'a' ++ ' ' :: List.replicate 600 'b')
      = [List.replicate 600 'a', List.replicate 600 'b'] := by decide
  rw [hsp] at hx
  simp only [consecOverlap] at hx
  have hrel := (List.chain'_cons.mp hx).1
  have : ¬ ((List.replicate 600 'b').take 100
      = (List.replicate 600 'a').drop ((List.replicate 600 'a').length - 100)) := by
    decide
  exact this hrel

/-- C9 amended: with the repository configuration (`chunk_size=1000`,
`chunk_overlap=100`, default separators) the Chunker produces an ordered
sequence of spans, each of length at most 1000, and splitting is
deterministic: identical input texts yield identical span sequences.  The
original claim's clause that each later span overlaps its predecessor by
`chunk_overlap` characters is refuted by the counterexample, where
consecutive spans share no characters at all. -/
theorem C9_chunk_bounds (text : List Char) :
    (∀ c ∈ splitText 1000 100 text, c.length ≤ 1000) ∧
    (∀ t2 : List Char, text = t2 → splitText 1000 100 text = splitText 1000 100 t2) := by
  refine ⟨fun c hc =>
    split_text_bound 1000 100 (by omega) pySeparators (by simp [pySeparators]) text c hc, ?_⟩
  intro t2 h
  rw [h]

theorem C9_chunk_bounds_witness :
    ("hello world".data ∈ splitText 1000 100 "hello world".data) ∧
    "hello world".data.length ≤ 1000 :=
  ⟨by decide, (C9_chunk_bounds "hello world".data).1 "hello world".data (by decide)⟩

end Raymondo
